import Mathlib

/-!
Verification of the gomongo change-history watcher subsystem.

The Go source under scrutiny is `watcher.go` (event handling and the
field-level diff), `changestream.go` (the watch loop and collection
filtering), `history.go` (the `History` record and the collection
contract) and `mongodb_operations.go` (the `create` persistence helper).

BSON documents are modelled as association lists from field names to a
recursive variant `Value` (strings, integers, booleans, abstract object
identifiers, nested maps).  A Go `nil` map is represented by the empty
list, and a Go `nil` interface value on one side of a comparison is
represented by `Option.none`.  MongoDB object identifiers are modelled
as abstract scalars `Value.vId`.  Fallible Go functions returning
`(T, error)` become `Except String T` (or dedicated error types).
External collaborators (the document store and the change feed) are
passed in as explicit response functions or response lists.
-/

/-- A BSON-like document value: the recursive variant type over which the
diff engine operates (string, int, bool, object-id scalars and nested
maps of field name to value). -/
inductive Value where
  | vStr (s : String)
  | vInt (n : Int)
  | vBool (b : Bool)
  | vId (i : Nat)
  | vMap (entries : List (String × Value))
deriving Repr

/-- Go map indexing `m[k]`: first binding of key `k` in an association
list, `none` when the key is absent. -/
def lookupKey : List (String × α) → String → Option α
  | [], _ => none
  | (k, v) :: rest, key => if k = key then some v else lookupKey rest key

/-- Go `delete(m, k)`: remove the binding of key `k`. -/
def eraseKey (l : List (String × α)) (key : String) : List (String × α) :=
  l.filter (fun kv => kv.1 ≠ key)

mutual
/-- Boolean equality on `Value`, by mutual recursion with equality on
entry lists. -/
def Value.beq : Value → Value → Bool
  | .vStr a, .vStr b => a == b
  | .vInt a, .vInt b => a == b
  | .vBool a, .vBool b => a == b
  | .vId a, .vId b => a == b
  | .vMap a, .vMap b => Value.beqEntries a b
  | _, _ => false

/-- Boolean equality on entry lists of `Value` maps. -/
def Value.beqEntries : List (String × Value) → List (String × Value) → Bool
  | [], [] => true
  | (k, v) :: r, (k', v') :: r' => k == k' && Value.beq v v' && Value.beqEntries r r'
  | _, _ => false
end

mutual
theorem Value.beq_refl : (v : Value) → Value.beq v v = true
  | .vStr _ => by simp [Value.beq]
  | .vInt _ => by simp [Value.beq]
  | .vBool _ => by simp [Value.beq]
  | .vId _ => by simp [Value.beq]
  | .vMap m => by simp [Value.beq, Value.beqEntries_refl m]

theorem Value.beqEntries_refl : (l : List (String × Value)) → Value.beqEntries l l = true
  | [] => by simp [Value.beqEntries]
  | (k, v) :: r => by
    simp [Value.beqEntries, Value.beq_refl v, Value.beqEntries_refl r]
end

mutual
theorem Value.eq_of_beq : {a b : Value} → Value.beq a b = true → a = b
  | .vStr _, .vStr _, h => by simpa [Value.beq] using h
  | .vStr _, .vInt _, h => by simp [Value.beq] at h
  | .vStr _, .vBool _, h => by simp [Value.beq] at h
  | .vStr _, .vId _, h => by simp [Value.beq] at h
  | .vStr _, .vMap _, h => by simp [Value.beq] at h
  | .vInt _, .vStr _, h => by simp [Value.beq] at h
  | .vInt _, .vInt _, h => by simpa [Value.beq] using h
  | .vInt _, .vBool _, h => by simp [Value.beq] at h
  | .vInt _, .vId _, h => by simp [Value.beq] at h
  | .vInt _, .vMap _, h => by simp [Value.beq] at h
  | .vBool _, .vStr _, h => by simp [Value.beq] at h
  | .vBool _, .vInt _, h => by simp [Value.beq] at h
  | .vBool _, .vBool _, h => by simpa [Value.beq] using h
  | .vBool _, .vId _, h => by simp [Value.beq] at h
  | .vBool _, .vMap _, h => by simp [Value.beq] at h
  | .vId _, .vStr _, h => by simp [Value.beq] at h
  | .vId _, .vInt _, h => by simp [Value.beq] at h
  | .vId _, .vBool _, h => by simp [Value.beq] at h
  | .vId _, .vId _, h => by simpa [Value.beq] using h
  | .vId _, .vMap _, h => by simp [Value.beq] at h
  | .vMap _, .vStr _, h => by simp [Value.beq] at h
  | .vMap _, .vInt _, h => by simp [Value.beq] at h
  | .vMap _, .vBool _, h => by simp [Value.beq] at h
  | .vMap _, .vId _, h => by simp [Value.beq] at h
  | .vMap a, .vMap b, h => by
    simp only [Value.beq] at h
    exact congrArg Value.vMap (Value.eqEntries_of_beq h)

theorem Value.eqEntries_of_beq : {a b : List (String × Value)} →
    Value.beqEntries a b = true → a = b
  | [], [], _ => rfl
  | [], (_, _) :: _, h => by simp [Value.beqEntries] at h
  | (_, _) :: _, [], h => by simp [Value.beqEntries] at h
  | (k, v) :: r, (k', v') :: r', h => by
    simp only [Value.beqEntries, Bool.and_eq_true, beq_iff_eq] at h
    obtain ⟨⟨hk, hv⟩, hr⟩ := h
    rw [hk, Value.eq_of_beq hv, Value.eqEntries_of_beq hr]
end

instance : BEq Value := ⟨Value.beq⟩

instance : DecidableEq Value := fun a b =>
  if h : Value.beq a b = true then
    .isTrue (Value.eq_of_beq h)
  else
    .isFalse (fun he => h (he ▸ Value.beq_refl a))

/-- One entry of the diff changelog, mirroring the `Change{Type, Path, From, To}` record of the diff library; a Go `nil` on either side is `none`. -/
structure Change where
  ctype : String
  path : List String
  fromv : Option Value
  tov : Option Value
deriving Repr, DecidableEq

/-- Key union in comparison order: keys of the prior snapshot first, then
the keys appearing only in the new snapshot. -/
def unionKeys (a b : List (String × Value)) : List String :=
  a.map Prod.fst ++ (b.map Prod.fst).filter (fun k => !(a.map Prod.fst).contains k)

mutual
/-- Changelog entries for a value present only on the new side: nested
maps are flattened to one create entry per leaf, with the old side nil. -/
def createChanges (path : List String) : Value → List Change
  | .vMap entries => createChangesList path entries
  | v => [⟨"create", path, none, some v⟩]

/-- `createChanges` over the entries of a nested map. -/
def createChangesList (path : List String) : List (String × Value) → List Change
  | [] => []
  | (k, v) :: rest => createChanges (path ++ [k]) v ++ createChangesList path rest
end

mutual
/-- Changelog entries for a value present only on the old side: nested
maps are flattened to one delete entry per leaf, with the new side nil. -/
def deleteChanges (path : List String) : Value → List Change
  | .vMap entries => deleteChangesList path entries
  | v => [⟨"delete", path, some v, none⟩]

/-- `deleteChanges` over the entries of a nested map. -/
def deleteChangesList (path : List String) : List (String × Value) → List Change
  | [] => []
  | (k, v) :: rest => deleteChanges (path ++ [k]) v ++ deleteChangesList path rest
end

mutual
/-- Generous fuel bound for the recursive diff of a value: every node is
counted at least twice, so the diff of two values always completes
within `valueFuel` of each side (fuel only guards the recursion; the
library recurses on the actual structure). -/
def valueFuel : Value → Nat
  | .vMap entries => 2 + 2 * entriesFuel entries
  | _ => 1

/-- `valueFuel` summed over the entries of a map. -/
def entriesFuel : List (String × Value) → Nat
  | [] => 1
  | (_, v) :: rest => 2 + valueFuel v + entriesFuel rest
end

mutual
/-- The structural diff of two optional values (`none` is a missing or
nil side), producing flattened leaf-level changelog entries; values of
different shapes make the whole diff fail, as the library does.  The
`fuel` argument only bounds the recursion depth and is always supplied
large enough by `diffDiff`. -/
def diffOV : Nat → List String → Option Value → Option Value → Except String (List Change)
  | 0, _, _, _ => .error "diff recursion depth exceeded"
  | fuel + 1, path, x, y =>
    match x, y with
    | none, none => .ok []
    | none, some v => .ok (createChanges path v)
    | some v, none => .ok (deleteChanges path v)
    | some (.vStr a), some (.vStr b) =>
      .ok (if a = b then [] else [⟨"update", path, some (.vStr a), some (.vStr b)⟩])
    | some (.vInt a), some (.vInt b) =>
      .ok (if a = b then [] else [⟨"update", path, some (.vInt a), some (.vInt b)⟩])
    | some (.vBool a), some (.vBool b) =>
      .ok (if a = b then [] else [⟨"update", path, some (.vBool a), some (.vBool b)⟩])
    | some (.vId a), some (.vId b) =>
      .ok (if a = b then [] else [⟨"update", path, some (.vId a), some (.vId b)⟩])
    | some (.vMap ma), some (.vMap mb) => diffKeys fuel path ma mb (unionKeys ma mb)
    | some _, some _ => .error "types do not match"

/-- Comparative diff of two maps over an explicit key list: the bindings of
each key on both sides are diffed recursively and the changelogs are
concatenated; the first failure aborts. -/
def diffKeys : Nat → List String → List (String × Value) → List (String × Value) →
    List String → Except String (List Change)
  | 0, _, _, _, _ => .error "diff recursion depth exceeded"
  | _ + 1, _, _, _, [] => .ok []
  | fuel + 1, path, ma, mb, k :: rest =>
    match diffOV fuel (path ++ [k]) (lookupKey ma k) (lookupKey mb k) with
    | .error e => .error e
    | .ok cs1 =>
      match diffKeys fuel path ma mb rest with
      | .error e => .error e
      | .ok cs2 => .ok (cs1 ++ cs2)
end

/-- Fuel supplied for the diff of two documents: enough for the whole
recursion (see `valueFuel`). -/
def diffFuel (a b : List (String × Value)) : Nat :=
  6 + 2 * (entriesFuel a + entriesFuel b)

/-- `diff.Diff` as called by the watcher: both arguments are documents
(possibly nil maps, modelled by the empty list). -/
def diffDiff (a b : List (String × Value)) : Except String (List Change) :=
  diffOV (diffFuel a b) [] (some (.vMap a)) (some (.vMap b))

/-- `strings.Join(change.Path, ".")`: the dotted field path. -/
def joinPath (p : List String) : String :=
  String.intercalate "." p

/-- The `{Old, New}` pair recorded for one changed field
(`UpdatedField` in `history.go`); Go `nil` is `none`. -/
structure UpdatedField where
  old : Option Value
  new : Option Value
deriving Repr, DecidableEq

/-- Go map assignment `m[k] = v` on the `UpdatedFields` accumulator:
replace the binding if the key exists, append otherwise. -/
def insertUF : List (String × UpdatedField) → String → UpdatedField → List (String × UpdatedField)
  | [], k, v => [(k, v)]
  | (k', v') :: rest, k, v =>
    if k' = k then (k, v) :: rest else (k', v') :: insertUF rest k v

/-- One step of the accumulation loop in `updatedFields`: join the
path of the change with dots and record its `{Old, New}` pair unless the
joined field is exactly the identifier field. -/
def updatedFieldsStep (uf : List (String × UpdatedField)) (change : Change) :
    List (String × UpdatedField) :=
  let field := joinPath change.path
  if field ≠ "_id" then insertUF uf field ⟨change.fromv, change.tov⟩ else uf

/-- `updatedFields` from `watcher.go`: diff the two snapshots and build
the field-path-to-`{Old, New}` map, skipping the identifier field. -/
def updatedFields (last history : List (String × Value)) :
    Except String (List (String × UpdatedField)) :=
  match diffDiff last history with
  | .error _ => .error "failed to get diff between entries"
  | .ok changes => .ok (changes.foldl updatedFieldsStep [])

/-- `OrderBy` from `history.go`: `OrderAsc = 1`, `OrderDesc = -1`. -/
def OrderAsc : Int := 1

/-- Descending order constant. -/
def OrderDesc : Int := -1

/-- A single-result store query as issued by `findOne`: a filter document
and a sort order (field name to `OrderBy`). -/
structure Query where
  filter : List (String × Value)
  order : List (String × Int)
deriving Repr, DecidableEq

/-- The `History` record from `history.go`; the `ID` field of the
mutated document is an optional object identifier (a Go nil pointer is
`none`), `Modified` is the full document snapshot (nil map is `[]`). -/
structure History where
  createdAt : Nat
  collectionName : String
  objectID : Option Nat
  modified : List (String × Value)
  updatedFields : List (String × UpdatedField)
  action : String
deriving Repr, DecidableEq

/-- The zero `History{}` value a failed lookup leaves behind. -/
def emptyHistory : History :=
  { createdAt := 0, collectionName := "", objectID := none,
    modified := [], updatedFields := [], action := "" }

/-- The namespace payload of a change event (`ns` in
`changestream.go`). -/
structure EventNS where
  db : String
  collection : String
deriving Repr, DecidableEq

/-- A decoded change-stream event (`event` in `changestream.go`); the
unused `updateDescription` payload is omitted. -/
structure event where
  ns : EventNS
  clusterTime : Nat
  fullDocument : List (String × Value)
  documentKey : List (String × Value)
  operationType : String
deriving Repr, DecidableEq

/-- Outcome of a single-record store lookup: a record, the
`ErrDocumentNotFound` signal, or any other backend error. -/
inductive LookupResult where
  | found (h : History)
  | notFound
  | failure (msg : String)
deriving Repr, DecidableEq

/-- Outcome of `historyCollection.Create`: a fresh identifier, the
`ErrDuplicateKey` signal, or any other persistence error. -/
inductive CreateResult where
  | created (id : Nat)
  | dupKey
  | failure (msg : String)
deriving Repr, DecidableEq

/-- `Collection.LastInserted` from `history.go`: a `findOne` with the
caller filter, ordered by insertion order (`_id`) descending; the store
is an explicit response function. -/
def LastInserted (store : Query → LookupResult) (filter : List (String × Value)) :
    LookupResult :=
  store { filter := filter, order := [("_id", OrderDesc)] }

/-- `lastInsertedByObjectID` from `watcher.go`: filter by `ObjectID`
equality. -/
def lastInsertedByObjectID (store : Query → LookupResult) (objectID : Nat) :
    LookupResult :=
  LastInserted store [("objectid", .vId objectID)]

/-- The identifier extraction `e.DocumentKey["_id"].(ID)`: succeeds only
when the document key holds an object identifier under `"_id"`. -/
def extractId (e : event) : Option Nat :=
  match lookupKey e.documentKey "_id" with
  | some (.vId i) => some i
  | _ => none

/-- Whether a lookup failed with an error other than
`ErrDocumentNotFound` (`err != nil && err != ErrDocumentNotFound`). -/
def isOtherFailure : LookupResult → Bool
  | .failure _ => true
  | _ => false

/-- The record a lookup leaves in `last`: the found entry on success,
the zero `History{}` otherwise. -/
def lookedUpHistory : LookupResult → History
  | .found h => h
  | _ => emptyHistory

/-- The `History` record assembled by `handleEvents` from the event, the
extracted identifier and the computed updated fields. -/
def mkHistory (e : event) (id : Nat) (uf : List (String × UpdatedField)) : History :=
  { createdAt := e.clusterTime,
    collectionName := e.ns.collection,
    objectID := some id,
    modified := e.fullDocument,
    updatedFields := uf,
    action := e.operationType }

/-- `handleEvents` from `watcher.go`.  The store (lookup side) and the
history collection (create side) are explicit collaborators.  The
successful result records the side effect: `some h` when a new entry
`h` was persisted, `none` when a duplicate-key failure was swallowed
and no entry was created. -/
def handleEvents (store : Query → LookupResult) (create : History → CreateResult)
    (e : event) : Except String (Option History) :=
  match extractId e with
  | none => .error "could not get id from event document"
  | some id =>
    let res := lastInsertedByObjectID store id
    if isOtherFailure res then .error "failed to get last entry"
    else
      let last := lookedUpHistory res
      match updatedFields last.modified e.fullDocument with
      | .error msg => .error msg
      | .ok uf =>
        let history := mkHistory e id uf
        match create history with
        | .created _ => .ok (some history)
        | .dupKey => .ok none
        | .failure msg => .error msg

/-- `collectionBellongToWatch` from `changestream.go`
(`slices.Contains`). -/
def collectionBellongToWatch (collectionName : String) (collections : List String) : Bool :=
  collections.contains collectionName

/-- The body of the `cs.Next` loop in `watch`: the stream is the list of
decode outcomes in feed order; a decode failure or a handler failure
aborts with that error, events of unwatched collections are skipped, and
the successful result collects the History entries actually persisted,
in order. -/
def watchLoop (handleEvent : event → Except String (Option History))
    (collectionNamesToWatch : List String) :
    List (Except String event) → Except String (List History)
  | [] => .ok []
  | .error msg :: _ => .error msg
  | .ok e :: rest =>
    if collectionBellongToWatch e.ns.collection collectionNamesToWatch then
      match handleEvent e with
      | .error msg => .error msg
      | .ok created =>
        match watchLoop handleEvent collectionNamesToWatch rest with
        | .error msg => .error msg
        | .ok hs => .ok (created.toList ++ hs)
    else
      watchLoop handleEvent collectionNamesToWatch rest

/-- `watch` from `changestream.go`: a failed subscription open returns
that error before any event is pulled; otherwise the loop processes the
decoded stream. -/
def watch (openResult : Except String Unit)
    (handleEvent : event → Except String (Option History))
    (collectionNamesToWatch : List String)
    (stream : List (Except String event)) : Except String (List History) :=
  match openResult with
  | .error msg => .error msg
  | .ok _ => watchLoop handleEvent collectionNamesToWatch stream

/-- A raw error from the driver `InsertOne` call: either a duplicate-key
write error (`mongo.IsDuplicateKeyError`) or any other error. -/
inductive MongoWriteError where
  | dup
  | other (msg : String)
deriving Repr, DecidableEq

/-- A store error surfaced by `create`: the `ErrDuplicateKey` sentinel,
the identifier-conversion failure, or a passed-through backend error. -/
inductive StoreError where
  | errDuplicateKey
  | errConvert (msg : String)
  | errOther (msg : String)
deriving Repr, DecidableEq

/-- `insertOneError` from `mongodb_operations.go`: a duplicate-key
driver error becomes `ErrDuplicateKey`, everything else passes
through. -/
def insertOneError : MongoWriteError → StoreError
  | .dup => .errDuplicateKey
  | .other msg => .errOther msg

/-- `insertOneResultToID`: the `InsertedID` of the result must be an
object identifier. -/
def insertOneResultToID (insertedId : Value) : Except StoreError Nat :=
  match insertedId with
  | .vId i => .ok i
  | _ => .error (.errConvert "cannot convert id to ObjectID")

/-- `dataToBSON`: documents are modelled directly as BSON maps, so the
marshal round-trip is the identity. -/
def dataToBSON (doc : List (String × Value)) : Except StoreError (List (String × Value)) :=
  .ok doc

/-- `create` from `mongodb_operations.go`: marshal the document, delete
any `"_id"` binding, insert, and convert the store-assigned identifier.
The driver is the explicit response function `insertOne`, returning the
`InsertedID` value or a write error. -/
def create (insertOne : List (String × Value) → Except MongoWriteError Value)
    (doc : List (String × Value)) : Except StoreError Nat :=
  match dataToBSON doc with
  | .error e => .error e
  | .ok docBSON =>
    match insertOne (eraseKey docBSON "_id") with
    | .error err => .error (insertOneError err)
    | .ok result => insertOneResultToID result

/-- The value reached from an optional value by following a field path
(`none` both for a missing binding and for descending past a non-map). -/
def valueAt : Option Value → List String → Option Value
  | x, [] => x
  | some (.vMap m), k :: ks => valueAt (lookupKey m k) ks
  | _, _ :: _ => none

/-- Whether an optional value is a (present) map. -/
def isMapO : Option Value → Bool
  | some (.vMap _) => true
  | _ => false

/-- Modelled from the spec: a differing leaf of two snapshots — a path
at which the two snapshots hold different non-map values, a side being
`none` when the field is absent there (the missing side is nil). -/
def leafDiff (a b : List (String × Value)) (p : List String)
    (o n : Option Value) : Prop :=
  valueAt (some (.vMap a)) p = o ∧ valueAt (some (.vMap b)) p = n ∧
    o ≠ n ∧ isMapO o = false ∧ isMapO n = false

instance (a b : List (String × Value)) (p : List String) (o n : Option Value) :
    Decidable (leafDiff a b p o n) := by
  unfold leafDiff
  infer_instance

mutual
/-- Recursively well-formed map entries: no duplicate keys at any
level (always true of maps decoded from BSON documents). -/
def wfValue : Value → Bool
  | .vMap entries => wfEntries entries
  | _ => true

/-- `wfValue` over the entries of a map, also requiring key
uniqueness at this level. -/
def wfEntries : List (String × Value) → Bool
  | [] => true
  | (k, v) :: rest =>
    !(rest.map Prod.fst).contains k && wfValue v && wfEntries rest
end

/-- A concrete first-ever insert event: no prior History entry exists
for document 7. -/
def firstInsertEvent : event :=
  { ns := { db := "database_test", collection := "movies" },
    clusterTime := 1,
    fullDocument := [("_id", .vId 7), ("name", .vStr "Star Wars")],
    documentKey := [("_id", .vId 7)],
    operationType := "insert" }

/-- The History entry `handleEvents` assembles and persists for
`firstInsertEvent` when the prior lookup reports not-found. -/
def firstInsertHistory : History :=
  { createdAt := 1, collectionName := "movies", objectID := some 7,
    modified := [("_id", .vId 7), ("name", .vStr "Star Wars")],
    updatedFields := [("name", { old := none, new := some (.vStr "Star Wars") })],
    action := "insert" }

/-- An event on a collection that is not watched. -/
def unwatchedEvent : event :=
  { ns := { db := "database_test", collection := "not_watched_collection" },
    clusterTime := 2,
    fullDocument := [("_id", .vId 8)],
    documentKey := [("_id", .vId 8)],
    operationType := "insert" }

/-- An event whose document key does not hold an object identifier
under `"_id"`, so identifier extraction fails. -/
def noIdEvent : event :=
  { ns := { db := "database_test", collection := "movies" },
    clusterTime := 3,
    fullDocument := [("name", .vStr "x")],
    documentKey := [("_id", .vStr "not-an-object-id")],
    operationType := "update" }

/-- Prior snapshot with a dotted top-level key and a nested map whose
dotted leaf path collides with it. -/
def collisionPrior : List (String × Value) :=
  [("a.b", .vStr "1"), ("a", .vMap [("b", .vStr "2")])]

/-- New snapshot for the collision example. -/
def collisionNew : List (String × Value) :=
  [("a.b", .vStr "10"), ("a", .vMap [("b", .vStr "20")])]

/-- The two changelog entries the diff reports for the collision
example: distinct paths, identical joined field keys. -/
def collisionChanges : List Change :=
  [{ ctype := "update", path := ["a.b"],
     fromv := some (.vStr "1"), tov := some (.vStr "10") },
   { ctype := "update", path := ["a", "b"],
     fromv := some (.vStr "2"), tov := some (.vStr "20") }]

/-- The single surviving `UpdatedFields` entry for the collision
example. -/
def collisionUF : List (String × UpdatedField) :=
  [("a.b", { old := some (.vStr "2"), new := some (.vStr "20") })]

/-- Well-formedness of an optional value (`wfValue` below a present
value, trivially true for a missing one). -/
def wfO : Option Value → Bool
  | none => true
  | some v => wfValue v

/-- Fuel bound for one optional value. -/
def valueFuelO : Option Value → Nat
  | none => 1
  | some v => 1 + valueFuel v

theorem lookupKey_eraseKey (l : List (String × α)) (k : String) :
    lookupKey (eraseKey l k) k = none := by
  induction l with
  | nil => rfl
  | cons hd tl ih =>
    obtain ⟨k', v'⟩ := hd
    by_cases h : k' = k
    · simpa [eraseKey, h] using ih
    · simpa [eraseKey, lookupKey, h] using ih

theorem contains_iff_mem (n : String) (cols : List String) :
    collectionBellongToWatch n cols = true ↔ n ∈ cols := by
  simpa [collectionBellongToWatch] using List.elem_iff

/-- C5.  Events of collections outside the watched list are dropped with
no side effect: the watched-collection test is exactly list membership
(hence independent of the order of the list), and for a non-member event
the loop result is the result on the rest of the stream, for every
handler — so the handler is not invoked and no History entry is
recorded for that event. -/
theorem watch_drops_unwatched_collections :
    (∀ (n : String) (cols : List String),
      collectionBellongToWatch n cols = true ↔ n ∈ cols)
    ∧ (∀ (n : String) (cols cols' : List String), cols.Perm cols' →
        collectionBellongToWatch n cols = collectionBellongToWatch n cols')
    ∧ (∀ (e : event) (cols : List String), e.ns.collection ∉ cols →
        ∀ (he : event → Except String (Option History)) (rest : List (Except String event)),
          watchLoop he cols (.ok e :: rest) = watchLoop he cols rest) := by
  refine ⟨contains_iff_mem, ?_, ?_⟩
  · intro n cols cols' hperm
    rcases h : collectionBellongToWatch n cols' with _ | _
    · rcases h2 : collectionBellongToWatch n cols with _ | _
      · rfl
      · exact absurd (hperm.mem_iff.mp ((contains_iff_mem n cols).mp h2))
          (fun hm => by simp [(contains_iff_mem n cols').mpr hm] at h)
    · exact (contains_iff_mem n cols).mpr (hperm.mem_iff.mpr ((contains_iff_mem n cols').mp h))
  · intro e cols hnot he rest
    have hb : collectionBellongToWatch e.ns.collection cols = false := by
      rcases h : collectionBellongToWatch e.ns.collection cols with _ | _
      · rfl
      · exact absurd ((contains_iff_mem _ _).mp h) hnot
    simp [watchLoop, hb]

/-- C5 witness: a mutation of `not_watched_collection` while only
`watched_collection` is watched leaves the history untouched, even with
a handler that would abort the loop if it were invoked. -/
theorem watch_drops_unwatched_collections_witness :
    watchLoop (fun _ => .error "handler invoked") ["watched_collection"]
      [.ok unwatchedEvent] = .ok [] := by
  have h := watch_drops_unwatched_collections.2.2 unwatchedEvent ["watched_collection"]
    (by decide) (fun _ => .error "handler invoked") []
  rw [h]
  rfl

/-- C6.  The watch loop stops at the first failure of any kind: a failed
subscription open is returned immediately with no event processed; a
decode failure aborts the loop with that error regardless of the rest of
the stream; a handler failure on a watched event aborts with that error;
and an event whose document key does not hold an identifier of the
expected type makes the handler fail with the structural error. -/
theorem watch_aborts_on_first_failure :
    (∀ (msg : String) (he : event → Except String (Option History))
       (cols : List String) (stream : List (Except String event)),
        watch (.error msg) he cols stream = .error msg)
    ∧ (∀ (msg : String) (he : event → Except String (Option History))
         (cols : List String) (rest : List (Except String event)),
        watchLoop he cols (.error msg :: rest) = .error msg)
    ∧ (∀ (e : event) (msg : String) (he : event → Except String (Option History))
         (cols : List String) (rest : List (Except String event)),
        collectionBellongToWatch e.ns.collection cols = true →
        he e = .error msg →
        watchLoop he cols (.ok e :: rest) = .error msg)
    ∧ (∀ (store : Query → LookupResult) (create : History → CreateResult) (e : event),
        extractId e = none →
        handleEvents store create e = .error "could not get id from event document") := by
  refine ⟨fun _ _ _ _ => rfl, fun _ _ _ _ => rfl, ?_, ?_⟩
  · intro e msg he cols rest hmem hhe
    simp [watchLoop, hmem, hhe]
  · intro store create e hid
    simp [handleEvents, hid]

/-- C6 witness: each abort case at a concrete input. -/
theorem watch_aborts_on_first_failure_witness :
    watch (.error "open failed") (fun _ => .ok none) ["movies"] [.ok firstInsertEvent]
        = .error "open failed"
    ∧ watchLoop (fun _ => .ok none) ["movies"] [.error "decode failed", .ok firstInsertEvent]
        = .error "decode failed"
    ∧ watchLoop (fun _ => .error "handler failed") ["movies"] [.ok firstInsertEvent]
        = .error "handler failed"
    ∧ handleEvents (fun _ => .notFound) (fun _ => .dupKey) noIdEvent
        = .error "could not get id from event document" :=
  ⟨watch_aborts_on_first_failure.1 "open failed" (fun _ => .ok none) ["movies"] [.ok firstInsertEvent],
   watch_aborts_on_first_failure.2.1 "decode failed" (fun _ => .ok none) ["movies"] [.ok firstInsertEvent],
   watch_aborts_on_first_failure.2.2.1 firstInsertEvent "handler failed"
     (fun _ => .error "handler failed") ["movies"] [] (by decide) rfl,
   watch_aborts_on_first_failure.2.2.2 (fun _ => .notFound) (fun _ => .dupKey) noIdEvent rfl⟩

/-- C2.  Once `handleEvents` reaches the persistence step (identifier
extracted, lookup not a hard failure, diff computed), it succeeds
exactly when `Create` either succeeds or fails with the duplicate-key
error: on success the assembled entry is persisted, on a duplicate-key
failure the error is swallowed and no entry is created, and every other
persistence error is returned. -/
theorem handleEvents_create_outcomes
    (store : Query → LookupResult) (create : History → CreateResult) (e : event)
    (id : Nat) (uf : List (String × UpdatedField))
    (hid : extractId e = some id)
    (hnf : isOtherFailure (lastInsertedByObjectID store id) = false)
    (huf : updatedFields (lookedUpHistory (lastInsertedByObjectID store id)).modified
        e.fullDocument = .ok uf) :
    (handleEvents store create e = .ok (some (mkHistory e id uf)) ↔
      ∃ i, create (mkHistory e id uf) = .created i)
    ∧ (handleEvents store create e = .ok none ↔
        create (mkHistory e id uf) = .dupKey)
    ∧ (∀ msg, create (mkHistory e id uf) = .failure msg →
        handleEvents store create e = .error msg) := by
  have hunfold : handleEvents store create e =
      match create (mkHistory e id uf) with
      | .created _ => .ok (some (mkHistory e id uf))
      | .dupKey => .ok none
      | .failure msg => .error msg := by
    simp [handleEvents, hid, hnf, huf]
  rcases hc : create (mkHistory e id uf) with i | _ | msg <;>
    simp [hunfold, hc]

/-- C2 witness: replaying an event against a store whose `Create`
reports a duplicate key succeeds while recording nothing. -/
theorem handleEvents_create_outcomes_witness :
    handleEvents (fun _ => .notFound) (fun _ => .dupKey) firstInsertEvent = .ok none :=
  (handleEvents_create_outcomes (fun _ => .notFound) (fun _ => .dupKey)
    firstInsertEvent 7 [("name", { old := none, new := some (.vStr "Star Wars") })]
    rfl rfl rfl).2.1.mpr rfl

/-- C3.  The prior-state lookup queries the history store filtered by
`ObjectID` equality ordered by insertion order descending; a not-found
outcome is non-fatal and behaves exactly as an empty prior record,
while any other lookup error aborts `handleEvents` with the
lookup-failure error. -/
theorem handleEvents_lookup_behaviour :
    (∀ (store : Query → LookupResult) (id : Nat),
        lastInsertedByObjectID store id =
          store { filter := [("objectid", .vId id)], order := [("_id", OrderDesc)] })
    ∧ (∀ (create : History → CreateResult) (e : event) (id : Nat)
         (store store' : Query → LookupResult),
        extractId e = some id →
        lastInsertedByObjectID store id = .notFound →
        lastInsertedByObjectID store' id = .found emptyHistory →
        handleEvents store create e = handleEvents store' create e)
    ∧ (∀ (create : History → CreateResult) (e : event) (id : Nat)
         (store : Query → LookupResult) (msg : String),
        extractId e = some id →
        lastInsertedByObjectID store id = .failure msg →
        handleEvents store create e = .error "failed to get last entry") := by
  refine ⟨fun _ _ => rfl, ?_, ?_⟩
  · intro create e id store store' hid h1 h2
    simp [handleEvents, hid, h1, h2, isOtherFailure, lookedUpHistory]
  · intro create e id store msg hid h
    simp [handleEvents, hid, h, isOtherFailure]

/-- C3 witness: with no prior entry for the document, `handleEvents`
computes exactly what it computes against an explicit empty prior
record, and a backend lookup failure aborts. -/
theorem handleEvents_lookup_behaviour_witness :
    handleEvents (fun _ => .notFound) (fun _ => .created 9) firstInsertEvent =
      handleEvents (fun _ => .found emptyHistory) (fun _ => .created 9) firstInsertEvent
    ∧ handleEvents (fun _ => .failure "backend down") (fun _ => .created 9) firstInsertEvent =
        .error "failed to get last entry" :=
  ⟨handleEvents_lookup_behaviour.2.1 (fun _ => .created 9) firstInsertEvent 7
      (fun _ => .notFound) (fun _ => .found emptyHistory) rfl rfl rfl,
   handleEvents_lookup_behaviour.2.2 (fun _ => .created 9) firstInsertEvent 7
      (fun _ => .failure "backend down") "backend down" rfl rfl⟩

/-- C1.  Contrary to the specification (and to the expectation recorded
in the watcher test of the repository), the first-ever event for a
document does not yield an empty `UpdatedFields`: with no prior
snapshot, the diff of the nil prior state against the full document
reports every non-identifier field as created, so the recorded entry
has a non-empty `UpdatedFields` map. -/
theorem handleEvents_first_event_nonempty_updatedFields :
    handleEvents (fun _ => .notFound) (fun _ => .created 9) firstInsertEvent =
      .ok (some firstInsertHistory)
    ∧ firstInsertHistory.updatedFields ≠ [] :=
  ⟨rfl, by decide⟩

theorem lookupKey_insertUF_ne (l : List (String × UpdatedField)) (field k : String)
    (v : UpdatedField) (h : k ≠ field) :
    lookupKey (insertUF l field v) k = lookupKey l k := by
  have hfk : field ≠ k := Ne.symm h
  induction l with
  | nil => simp [insertUF, lookupKey, hfk]
  | cons hd tl ih =>
    obtain ⟨k', v'⟩ := hd
    by_cases hk : k' = field
    · simp [insertUF, hk, lookupKey, hfk]
    · simp only [insertUF, if_neg hk, lookupKey]
      by_cases hkk : k' = k <;> simp [hkk, ih]

theorem foldl_updatedFieldsStep_id_none (cs : List Change)
    (acc : List (String × UpdatedField)) (hacc : lookupKey acc "_id" = none) :
    lookupKey (List.foldl updatedFieldsStep acc cs) "_id" = none := by
  induction cs generalizing acc with
  | nil => simpa using hacc
  | cons c rest ih =>
    simp only [List.foldl_cons]
    apply ih
    unfold updatedFieldsStep
    by_cases h : joinPath c.path = "_id"
    · simp [h, hacc]
    · simp only [h, ne_eq, not_false_iff, if_true]
      rw [lookupKey_insertUF_ne _ _ _ _ (fun he => h he.symm)]
      exact hacc

/-- C7.  The identifier field is never a key of the produced
`UpdatedFields` map: every change whose joined path is exactly `"_id"`
is skipped before insertion. -/
theorem updatedFields_never_contains_id
    (last history : List (String × Value)) (uf : List (String × UpdatedField))
    (h : updatedFields last history = .ok uf) :
    lookupKey uf "_id" = none := by
  unfold updatedFields at h
  rcases hd : diffDiff last history with _ | changes <;> rw [hd] at h
  · cases h
  · cases h
    exact foldl_updatedFieldsStep_id_none changes [] rfl

/-- C7 witness: two snapshots whose identifier fields structurally
differ still yield no `"_id"` key. -/
theorem updatedFields_never_contains_id_witness :
    lookupKey ([("name", { old := some (.vStr "a"), new := some (.vStr "b") })] :
      List (String × UpdatedField)) "_id" = none :=
  updatedFields_never_contains_id
    [("_id", .vId 1), ("name", .vStr "a")] [("_id", .vId 2), ("name", .vStr "b")] _ rfl

/-- C8.  The identifier exclusion compares the joined path with the
exact string `"_id"` only: a nested field named `"_id"` has joined path
`"Nested._id"` and does appear in `UpdatedFields` when it differs. -/
theorem updatedFields_nested_id_not_excluded :
    updatedFields [("Nested", .vMap [("_id", .vStr "before")])]
        [("Nested", .vMap [("_id", .vStr "after")])] =
      .ok [("Nested._id", { old := some (.vStr "before"), new := some (.vStr "after") })]
    ∧ lookupKey [("Nested._id",
        ({ old := some (.vStr "before"), new := some (.vStr "after") } : UpdatedField))]
        "Nested._id" ≠ none :=
  ⟨rfl, by decide⟩

/-- C9.  Joining path segments with `"."` is not injective: the top
level field literally named `"a.b"` and the field `"b"` nested in map
`"a"` are distinct changed leaves with the same joined key, so one
overwrites the other and the output has fewer entries than the diff has
changes. -/
theorem updatedFields_joined_path_collision :
    diffDiff collisionPrior collisionNew = .ok collisionChanges
    ∧ joinPath ["a.b"] = joinPath ["a", "b"]
    ∧ (["a.b"] : List String) ≠ ["a", "b"]
    ∧ updatedFields collisionPrior collisionNew = .ok collisionUF
    ∧ collisionUF.length < collisionChanges.length :=
  ⟨rfl, rfl, by decide, rfl, by decide⟩

/-- C10.  `create` strips any caller-supplied `"_id"` binding from the
marshaled document before insertion, so the insert request never
carries a caller-chosen identifier, the result is unchanged by a
caller-supplied identifier binding, and the returned identifier is the
one assigned by the store. -/
theorem create_strips_caller_id
    (insertOne : List (String × Value) → Except MongoWriteError Value)
    (doc : List (String × Value)) :
    lookupKey (eraseKey doc "_id") "_id" = none
    ∧ (∀ v : Value, create insertOne (("_id", v) :: doc) = create insertOne doc)
    ∧ (∀ i : Nat, insertOne (eraseKey doc "_id") = .ok (.vId i) →
        create insertOne doc = .ok i) := by
  refine ⟨lookupKey_eraseKey doc "_id", ?_, ?_⟩
  · intro v
    simp [create, dataToBSON, eraseKey]
  · intro i h
    simp [create, dataToBSON, h, insertOneResultToID]

/-- C10 witness: a caller-supplied identifier is discarded and the
store-assigned identifier is returned. -/
theorem create_strips_caller_id_witness :
    create (fun _ => .ok (.vId 42)) [("_id", .vId 5), ("name", .vStr "x")] = .ok 42 := by
  have h := create_strips_caller_id (fun _ => .ok (.vId 42)) [("name", .vStr "x")]
  rw [h.2.1 (.vId 5)]
  exact h.2.2 42 rfl

theorem valueAt_none (q : List String) : valueAt none q = none := by
  cases q <;> rfl

theorem lookupKey_mem_keys {l : List (String × Value)} {k : String} {v : Value}
    (h : lookupKey l k = some v) : k ∈ l.map Prod.fst := by
  induction l with
  | nil => cases h
  | cons hd tl ih =>
    obtain ⟨k', v'⟩ := hd
    by_cases hk : k' = k
    · simp [hk]
    · simp only [lookupKey, if_neg hk] at h
      simp [ih h]

theorem lookupKey_eq_none_of_not_mem {l : List (String × Value)} {k : String}
    (h : k ∉ l.map Prod.fst) : lookupKey l k = none := by
  induction l with
  | nil => rfl
  | cons hd tl ih =>
    obtain ⟨k', v'⟩ := hd
    simp only [List.map_cons, List.mem_cons, not_or] at h
    have hne : ¬(k' = k) := fun he => h.1 he.symm
    simp only [lookupKey, if_neg hne]
    exact ih h.2

theorem wf_lookup {l : List (String × Value)} {k : String} {v : Value}
    (hwf : wfEntries l = true) (h : lookupKey l k = some v) : wfValue v = true := by
  induction l with
  | nil => cases h
  | cons hd tl ih =>
    obtain ⟨k', v'⟩ := hd
    simp only [wfEntries, Bool.and_eq_true] at hwf
    by_cases hk : k' = k
    · simp only [lookupKey, if_pos hk] at h
      cases h
      exact hwf.1.2
    · simp only [lookupKey, if_neg hk] at h
      exact ih hwf.2 h

theorem lookupKey_head_of_wf {k : String} {v : Value} {rest : List (String × Value)}
    (hwf : wfEntries ((k, v) :: rest) = true) {k' : String} {v' : Value}
    (h : lookupKey rest k' = some v') : lookupKey ((k, v) :: rest) k' = some v' := by
  have hcont : (rest.map Prod.fst).contains k = false := by
    have hw := hwf
    simp only [wfEntries, Bool.and_eq_true, Bool.not_eq_true'] at hw
    exact hw.1.1
  have hk : k ≠ k' := by
    intro he
    subst he
    have hmem := lookupKey_mem_keys h
    exact Bool.noConfusion ((List.elem_iff.mpr hmem).symm.trans hcont)
  simp only [lookupKey, if_neg hk]
  exact h

theorem mem_unionKeys {k : String} {ma mb : List (String × Value)} :
    k ∈ unionKeys ma mb ↔ k ∈ ma.map Prod.fst ∨ k ∈ mb.map Prod.fst := by
  constructor
  · intro h
    rcases List.mem_append.mp h with h | h
    · exact Or.inl h
    · exact Or.inr (List.mem_filter.mp h).1
  · intro h
    rcases h with h | h
    · exact List.mem_append.mpr (Or.inl h)
    · by_cases hma : k ∈ ma.map Prod.fst
      · exact List.mem_append.mpr (Or.inl hma)
      · refine List.mem_append.mpr (Or.inr (List.mem_filter.mpr ⟨h, ?_⟩))
        have hcont : (ma.map Prod.fst).contains k = false := by
          rcases hc : (ma.map Prod.fst).contains k with _ | _
          · rfl
          · exact absurd (List.elem_iff.mp hc) hma
        rw [hcont]
        rfl

mutual
theorem createChanges_sound : ∀ (v : Value) (path : List String) (c : Change),
    wfValue v = true → c ∈ createChanges path v →
    ∃ q w, c = ⟨"create", path ++ q, none, some w⟩ ∧
      valueAt (some v) q = some w ∧ isMapO (some w) = false
  | .vStr s, path, c, _, hc => by
    simp only [createChanges, List.mem_singleton] at hc
    exact ⟨[], .vStr s, by simpa using hc, rfl, rfl⟩
  | .vInt n, path, c, _, hc => by
    simp only [createChanges, List.mem_singleton] at hc
    exact ⟨[], .vInt n, by simpa using hc, rfl, rfl⟩
  | .vBool b, path, c, _, hc => by
    simp only [createChanges, List.mem_singleton] at hc
    exact ⟨[], .vBool b, by simpa using hc, rfl, rfl⟩
  | .vId i, path, c, _, hc => by
    simp only [createChanges, List.mem_singleton] at hc
    exact ⟨[], .vId i, by simpa using hc, rfl, rfl⟩
  | .vMap m, path, c, hwf, hc => by
    obtain ⟨k, q, w, hceq, hval, hmap⟩ :=
      createChangesList_sound m path c (by simpa [wfValue] using hwf)
        (by simpa [createChanges] using hc)
    exact ⟨k :: q, w, hceq, by simpa [valueAt] using hval, hmap⟩

theorem createChangesList_sound : ∀ (l : List (String × Value)) (path : List String)
    (c : Change), wfEntries l = true → c ∈ createChangesList path l →
    ∃ k q w, c = ⟨"create", path ++ (k :: q), none, some w⟩ ∧
      valueAt (lookupKey l k) q = some w ∧ isMapO (some w) = false
  | [], _, c, _, hc => by simp [createChangesList] at hc
  | (k0, v0) :: rest, path, c, hwf, hc => by
    have hwf0 := hwf
    simp only [wfEntries, Bool.and_eq_true] at hwf
    simp only [createChangesList] at hc
    rcases List.mem_append.mp hc with hcl | hcr
    · obtain ⟨q, w, hceq, hval, hmap⟩ := createChanges_sound v0 (path ++ [k0]) c hwf.1.2 hcl
      refine ⟨k0, q, w, by simpa [List.append_assoc] using hceq, ?_, hmap⟩
      have hlk : lookupKey ((k0, v0) :: rest) k0 = some v0 := by simp [lookupKey]
      rw [hlk]
      exact hval
    · obtain ⟨k, q, w, hceq, hval, hmap⟩ := createChangesList_sound rest path c hwf.2 hcr
      refine ⟨k, q, w, hceq, ?_, hmap⟩
      rcases hlk : lookupKey rest k with _ | v2
      · rw [hlk, valueAt_none] at hval
        cases hval
      · rw [lookupKey_head_of_wf hwf0 hlk]
        rw [hlk] at hval
        exact hval
end

mutual
theorem createChanges_complete : ∀ (v : Value) (path q : List String) (w : Value),
    valueAt (some v) q = some w → isMapO (some w) = false →
    (⟨"create", path ++ q, none, some w⟩ : Change) ∈ createChanges path v
  | .vStr s, path, [], w, hval, hmap => by
    cases hval
    simp [createChanges]
  | .vStr s, path, k :: ks, w, hval, hmap => by cases hval
  | .vInt n, path, [], w, hval, hmap => by
    cases hval
    simp [createChanges]
  | .vInt n, path, k :: ks, w, hval, hmap => by cases hval
  | .vBool b, path, [], w, hval, hmap => by
    cases hval
    simp [createChanges]
  | .vBool b, path, k :: ks, w, hval, hmap => by cases hval
  | .vId i, path, [], w, hval, hmap => by
    cases hval
    simp [createChanges]
  | .vId i, path, k :: ks, w, hval, hmap => by cases hval
  | .vMap m, path, [], w, hval, hmap => by
    cases hval
    simp [isMapO] at hmap
  | .vMap m, path, k :: ks, w, hval, hmap => by
    simp only [valueAt] at hval
    simpa [createChanges] using createChangesList_complete m path k ks w hval hmap

theorem createChangesList_complete : ∀ (l : List (String × Value)) (path : List String)
    (k : String) (q : List String) (w : Value),
    valueAt (lookupKey l k) q = some w → isMapO (some w) = false →
    (⟨"create", path ++ (k :: q), none, some w⟩ : Change) ∈ createChangesList path l
  | [], path, k, q, w, hval, hmap => by
    rw [show lookupKey ([] : List (String × Value)) k = none from rfl, valueAt_none] at hval
    cases hval
  | (k0, v0) :: rest, path, k, q, w, hval, hmap => by
    simp only [createChangesList]
    by_cases hk : k0 = k
    · subst hk
      rw [show lookupKey ((k0, v0) :: rest) k0 = some v0 from by simp [lookupKey]] at hval
      have := createChanges_complete v0 (path ++ [k0]) q w hval hmap
      exact List.mem_append.mpr (Or.inl (by simpa [List.append_assoc] using this))
    · rw [show lookupKey ((k0, v0) :: rest) k = lookupKey rest k from by
        simp [lookupKey, hk]] at hval
      exact List.mem_append.mpr (Or.inr (createChangesList_complete rest path k q w hval hmap))
end

mutual
theorem deleteChanges_sound : ∀ (v : Value) (path : List String) (c : Change),
    wfValue v = true → c ∈ deleteChanges path v →
    ∃ q w, c = ⟨"delete", path ++ q, some w, none⟩ ∧
      valueAt (some v) q = some w ∧ isMapO (some w) = false
  | .vStr s, path, c, _, hc => by
    simp only [deleteChanges, List.mem_singleton] at hc
    exact ⟨[], .vStr s, by simpa using hc, rfl, rfl⟩
  | .vInt n, path, c, _, hc => by
    simp only [deleteChanges, List.mem_singleton] at hc
    exact ⟨[], .vInt n, by simpa using hc, rfl, rfl⟩
  | .vBool b, path, c, _, hc => by
    simp only [deleteChanges, List.mem_singleton] at hc
    exact ⟨[], .vBool b, by simpa using hc, rfl, rfl⟩
  | .vId i, path, c, _, hc => by
    simp only [deleteChanges, List.mem_singleton] at hc
    exact ⟨[], .vId i, by simpa using hc, rfl, rfl⟩
  | .vMap m, path, c, hwf, hc => by
    obtain ⟨k, q, w, hceq, hval, hmap⟩ :=
      deleteChangesList_sound m path c (by simpa [wfValue] using hwf)
        (by simpa [deleteChanges] using hc)
    exact ⟨k :: q, w, hceq, by simpa [valueAt] using hval, hmap⟩

theorem deleteChangesList_sound : ∀ (l : List (String × Value)) (path : List String)
    (c : Change), wfEntries l = true → c ∈ deleteChangesList path l →
    ∃ k q w, c = ⟨"delete", path ++ (k :: q), some w, none⟩ ∧
      valueAt (lookupKey l k) q = some w ∧ isMapO (some w) = false
  | [], _, c, _, hc => by simp [deleteChangesList] at hc
  | (k0, v0) :: rest, path, c, hwf, hc => by
    have hwf0 := hwf
    simp only [wfEntries, Bool.and_eq_true] at hwf
    simp only [deleteChangesList] at hc
    rcases List.mem_append.mp hc with hcl | hcr
    · obtain ⟨q, w, hceq, hval, hmap⟩ := deleteChanges_sound v0 (path ++ [k0]) c hwf.1.2 hcl
      refine ⟨k0, q, w, by simpa [List.append_assoc] using hceq, ?_, hmap⟩
      have hlk : lookupKey ((k0, v0) :: rest) k0 = some v0 := by simp [lookupKey]
      rw [hlk]
      exact hval
    · obtain ⟨k, q, w, hceq, hval, hmap⟩ := deleteChangesList_sound rest path c hwf.2 hcr
      refine ⟨k, q, w, hceq, ?_, hmap⟩
      rcases hlk : lookupKey rest k with _ | v2
      · rw [hlk, valueAt_none] at hval
        cases hval
      · rw [lookupKey_head_of_wf hwf0 hlk]
        rw [hlk] at hval
        exact hval
end

mutual
theorem deleteChanges_complete : ∀ (v : Value) (path q : List String) (w : Value),
    valueAt (some v) q = some w → isMapO (some w) = false →
    (⟨"delete", path ++ q, some w, none⟩ : Change) ∈ deleteChanges path v
  | .vStr s, path, [], w, hval, hmap => by
    cases hval
    simp [deleteChanges]
  | .vStr s, path, k :: ks, w, hval, hmap => by cases hval
  | .vInt n, path, [], w, hval, hmap => by
    cases hval
    simp [deleteChanges]
  | .vInt n, path, k :: ks, w, hval, hmap => by cases hval
  | .vBool b, path, [], w, hval, hmap => by
    cases hval
    simp [deleteChanges]
  | .vBool b, path, k :: ks, w, hval, hmap => by cases hval
  | .vId i, path, [], w, hval, hmap => by
    cases hval
    simp [deleteChanges]
  | .vId i, path, k :: ks, w, hval, hmap => by cases hval
  | .vMap m, path, [], w, hval, hmap => by
    cases hval
    simp [isMapO] at hmap
  | .vMap m, path, k :: ks, w, hval, hmap => by
    simp only [valueAt] at hval
    simpa [deleteChanges] using deleteChangesList_complete m path k ks w hval hmap

theorem deleteChangesList_complete : ∀ (l : List (String × Value)) (path : List String)
    (k : String) (q : List String) (w : Value),
    valueAt (lookupKey l k) q = some w → isMapO (some w) = false →
    (⟨"delete", path ++ (k :: q), some w, none⟩ : Change) ∈ deleteChangesList path l
  | [], path, k, q, w, hval, hmap => by
    rw [show lookupKey ([] : List (String × Value)) k = none from rfl, valueAt_none] at hval
    cases hval
  | (k0, v0) :: rest, path, k, q, w, hval, hmap => by
    simp only [deleteChangesList]
    by_cases hk : k0 = k
    · subst hk
      rw [show lookupKey ((k0, v0) :: rest) k0 = some v0 from by simp [lookupKey]] at hval
      have := deleteChanges_complete v0 (path ++ [k0]) q w hval hmap
      exact List.mem_append.mpr (Or.inl (by simpa [List.append_assoc] using this))
    · rw [show lookupKey ((k0, v0) :: rest) k = lookupKey rest k from by
        simp [lookupKey, hk]] at hval
      exact List.mem_append.mpr (Or.inr (deleteChangesList_complete rest path k q w hval hmap))
end

theorem diff_characterization : ∀ fuel : Nat,
    (∀ (path : List String) (x y : Option Value) (cs : List Change),
      diffOV fuel path x y = .ok cs → wfO x = true → wfO y = true →
      ((∀ c ∈ cs, ∃ q, c.path = path ++ q ∧ c.fromv = valueAt x q ∧ c.tov = valueAt y q ∧
          c.fromv ≠ c.tov ∧ isMapO c.fromv = false ∧ isMapO c.tov = false)
       ∧ (∀ (q : List String) (o n : Option Value), valueAt x q = o → valueAt y q = n →
           o ≠ n → isMapO o = false → isMapO n = false →
           ∃ t, (⟨t, path ++ q, o, n⟩ : Change) ∈ cs)))
    ∧ (∀ (path : List String) (ma mb : List (String × Value)) (ks : List String)
         (cs : List Change),
      diffKeys fuel path ma mb ks = .ok cs → wfEntries ma = true → wfEntries mb = true →
      ((∀ c ∈ cs, ∃ k q, k ∈ ks ∧ c.path = path ++ (k :: q) ∧
          c.fromv = valueAt (lookupKey ma k) q ∧ c.tov = valueAt (lookupKey mb k) q ∧
          c.fromv ≠ c.tov ∧ isMapO c.fromv = false ∧ isMapO c.tov = false)
       ∧ (∀ (k : String) (q : List String) (o n : Option Value), k ∈ ks →
           valueAt (lookupKey ma k) q = o → valueAt (lookupKey mb k) q = n →
           o ≠ n → isMapO o = false → isMapO n = false →
           ∃ t, (⟨t, path ++ (k :: q), o, n⟩ : Change) ∈ cs))) := by
  intro fuel
  induction fuel with
  | zero =>
    constructor
    · intro path x y cs h _ _
      simp [diffOV] at h
    · intro path ma mb ks cs h _ _
      simp [diffKeys] at h
  | succ fuel ih =>
    obtain ⟨ihOV, ihK⟩ := ih
    constructor
    · intro path x y cs h hwx hwy
      rcases x with _ | vx <;> rcases y with _ | vy
      · -- both sides nil
        simp only [diffOV, Except.ok.injEq] at h
        subst h
        refine ⟨fun c hc => absurd hc (List.not_mem_nil c), ?_⟩
        intro q o n ho hn hne _ _
        rw [valueAt_none] at ho hn
        exact absurd (by rw [← ho, ← hn]) hne
      · -- create side
        simp only [diffOV, Except.ok.injEq] at h
        subst h
        constructor
        · intro c hc
          obtain ⟨q, w, hceq, hval, hmap⟩ :=
            createChanges_sound vy path c (by simpa [wfO] using hwy) hc
          subst hceq
          exact ⟨q, rfl, (valueAt_none q).symm, hval.symm, by simp, rfl, hmap⟩
        · intro q o n ho hn hne hmo hmn
          rw [valueAt_none] at ho
          subst ho
          rcases n with _ | w
          · exact absurd rfl hne
          · exact ⟨"create", createChanges_complete vy path q w hn hmn⟩
      · -- delete side
        simp only [diffOV, Except.ok.injEq] at h
        subst h
        constructor
        · intro c hc
          obtain ⟨q, w, hceq, hval, hmap⟩ :=
            deleteChanges_sound vx path c (by simpa [wfO] using hwx) hc
          subst hceq
          exact ⟨q, rfl, hval.symm, (valueAt_none q).symm, by simp, hmap, rfl⟩
        · intro q o n ho hn hne hmo hmn
          rw [valueAt_none] at hn
          subst hn
          rcases o with _ | w
          · exact absurd rfl hne
          · exact ⟨"delete", deleteChanges_complete vx path q w ho hmo⟩
      · -- both present: same-shape compare or shape mismatch
        rcases vx with sa | ia | ba | ida | ma <;> rcases vy with sb | ib | bb | idb | mb <;>
          simp only [diffOV, Except.ok.injEq] at h <;> try exact Except.noConfusion h
        case vStr.vStr =>
          by_cases hab : sa = sb
          · rw [if_pos hab] at h
            subst h
            subst hab
            refine ⟨fun c hc => absurd hc (List.not_mem_nil c), ?_⟩
            intro q o n ho hn hne _ _
            rcases q with _ | ⟨k, ks⟩ <;> simp only [valueAt] at ho hn
            · exact absurd (by rw [← ho, ← hn]) hne
            · exact absurd (by rw [← ho, ← hn]) hne
          · rw [if_neg hab] at h
            subst h
            constructor
            · intro c hc
              simp only [List.mem_singleton] at hc
              subst hc
              exact ⟨[], by simp, rfl, rfl, by simp [hab], rfl, rfl⟩
            · intro q o n ho hn hne hmo hmn
              rcases q with _ | ⟨k, ks⟩ <;> simp only [valueAt] at ho hn
              · subst ho
                subst hn
                exact ⟨"update", by simp⟩
              · exact absurd (by rw [← ho, ← hn]) hne
        case vInt.vInt =>
          by_cases hab : ia = ib
          · rw [if_pos hab] at h
            subst h
            subst hab
            refine ⟨fun c hc => absurd hc (List.not_mem_nil c), ?_⟩
            intro q o n ho hn hne _ _
            rcases q with _ | ⟨k, ks⟩ <;> simp only [valueAt] at ho hn
            · exact absurd (by rw [← ho, ← hn]) hne
            · exact absurd (by rw [← ho, ← hn]) hne
          · rw [if_neg hab] at h
            subst h
            constructor
            · intro c hc
              simp only [List.mem_singleton] at hc
              subst hc
              exact ⟨[], by simp, rfl, rfl, by simp [hab], rfl, rfl⟩
            · intro q o n ho hn hne hmo hmn
              rcases q with _ | ⟨k, ks⟩ <;> simp only [valueAt] at ho hn
              · subst ho
                subst hn
                exact ⟨"update", by simp⟩
              · exact absurd (by rw [← ho, ← hn]) hne
        case vBool.vBool =>
          by_cases hab : ba = bb
          · rw [if_pos hab] at h
            subst h
            subst hab
            refine ⟨fun c hc => absurd hc (List.not_mem_nil c), ?_⟩
            intro q o n ho hn hne _ _
            rcases q with _ | ⟨k, ks⟩ <;> simp only [valueAt] at ho hn
            · exact absurd (by rw [← ho, ← hn]) hne
            · exact absurd (by rw [← ho, ← hn]) hne
          · rw [if_neg hab] at h
            subst h
            constructor
            · intro c hc
              simp only [List.mem_singleton] at hc
              subst hc
              exact ⟨[], by simp, rfl, rfl, by simp [hab], rfl, rfl⟩
            · intro q o n ho hn hne hmo hmn
              rcases q with _ | ⟨k, ks⟩ <;> simp only [valueAt] at ho hn
              · subst ho
                subst hn
                exact ⟨"update", by simp⟩
              · exact absurd (by rw [← ho, ← hn]) hne
        case vId.vId =>
          by_cases hab : ida = idb
          · rw [if_pos hab] at h
            subst h
            subst hab
            refine ⟨fun c hc => absurd hc (List.not_mem_nil c), ?_⟩
            intro q o n ho hn hne _ _
            rcases q with _ | ⟨k, ks⟩ <;> simp only [valueAt] at ho hn
            · exact absurd (by rw [← ho, ← hn]) hne
            · exact absurd (by rw [← ho, ← hn]) hne
          · rw [if_neg hab] at h
            subst h
            constructor
            · intro c hc
              simp only [List.mem_singleton] at hc
              subst hc
              exact ⟨[], by simp, rfl, rfl, by simp [hab], rfl, rfl⟩
            · intro q o n ho hn hne hmo hmn
              rcases q with _ | ⟨k, ks⟩ <;> simp only [valueAt] at ho hn
              · subst ho
                subst hn
                exact ⟨"update", by simp⟩
              · exact absurd (by rw [← ho, ← hn]) hne
        case vMap.vMap =>
          obtain ⟨Ksound, Kcomplete⟩ :=
            ihK path ma mb (unionKeys ma mb) cs h
              (by simpa [wfO, wfValue] using hwx) (by simpa [wfO, wfValue] using hwy)
          constructor
          · intro c hc
            obtain ⟨k, q, _, hpath, hfrom, hto, hne, hm1, hm2⟩ := Ksound c hc
            exact ⟨k :: q, hpath, by simpa [valueAt] using hfrom,
              by simpa [valueAt] using hto, hne, hm1, hm2⟩
          · intro q o n ho hn hne hmo hmn
            rcases q with _ | ⟨k, ks⟩
            · simp only [valueAt] at ho
              rw [← ho] at hmo
              simp [isMapO] at hmo
            · simp only [valueAt] at ho hn
              have hk : k ∈ unionKeys ma mb := by
                by_contra hnk
                rw [mem_unionKeys, not_or] at hnk
                rw [lookupKey_eq_none_of_not_mem hnk.1, valueAt_none] at ho
                rw [lookupKey_eq_none_of_not_mem hnk.2, valueAt_none] at hn
                exact hne (by rw [← ho, ← hn])
              exact Kcomplete k ks o n hk ho hn hne hmo hmn
    · intro path ma mb ks cs h hwma hwmb
      rcases ks with _ | ⟨k, rest⟩
      · simp only [diffKeys, Except.ok.injEq] at h
        subst h
        refine ⟨fun c hc => absurd hc (List.not_mem_nil c), ?_⟩
        intro k q o n hk
        exact absurd hk (List.not_mem_nil k)
      · rcases h1 : diffOV fuel (path ++ [k]) (lookupKey ma k) (lookupKey mb k) with e1 | cs1
        · simp only [diffKeys, h1] at h
          exact Except.noConfusion h
        · rcases h2 : diffKeys fuel path ma mb rest with e2 | cs2
          · simp only [diffKeys, h1, h2] at h
            exact Except.noConfusion h
          · simp only [diffKeys, h1, h2, Except.ok.injEq] at h
            subst h
            have hw1 : wfO (lookupKey ma k) = true := by
              rcases hl : lookupKey ma k with _ | v
              · rfl
              · simpa [wfO] using wf_lookup hwma hl
            have hw2 : wfO (lookupKey mb k) = true := by
              rcases hl : lookupKey mb k with _ | v
              · rfl
              · simpa [wfO] using wf_lookup hwmb hl
            obtain ⟨S1, C1⟩ := ihOV (path ++ [k]) _ _ cs1 h1 hw1 hw2
            obtain ⟨S2, C2⟩ := ihK path ma mb rest cs2 h2 hwma hwmb
            constructor
            · intro c hc
              rcases List.mem_append.mp hc with hc1 | hc2
              · obtain ⟨q, hpath, hfrom, hto, hne, hm1, hm2⟩ := S1 c hc1
                exact ⟨k, q, List.mem_cons_self k rest,
                  by simpa [List.append_assoc] using hpath, hfrom, hto, hne, hm1, hm2⟩
              · obtain ⟨k', q, hk', hpath, hfrom, hto, hne, hm1, hm2⟩ := S2 c hc2
                exact ⟨k', q, List.mem_cons_of_mem k hk', hpath, hfrom, hto, hne, hm1, hm2⟩
            · intro k' q o n hk' ho hn hne hmo hmn
              rcases List.mem_cons.mp hk' with rfl | hk'rest
              · obtain ⟨t, hmem⟩ := C1 q o n ho hn hne hmo hmn
                refine ⟨t, ?_⟩
                have := List.mem_append_left cs2 hmem
                simpa [List.append_assoc] using this
              · obtain ⟨t, hmem⟩ := C2 k' q o n hk'rest ho hn hne hmo hmn
                exact ⟨t, List.mem_append_right cs1 hmem⟩

theorem lookupKey_insertUF_self (l : List (String × UpdatedField)) (field : String)
    (v : UpdatedField) : lookupKey (insertUF l field v) field = some v := by
  induction l with
  | nil => simp [insertUF, lookupKey]
  | cons hd tl ih =>
    obtain ⟨k', v'⟩ := hd
    by_cases hk : k' = field
    · simp [insertUF, hk, lookupKey]
    · simp only [insertUF, if_neg hk, lookupKey, if_neg hk]
      exact ih

theorem foldl_step_untouched (cs : List Change) (acc : List (String × UpdatedField))
    (key : String) (h : ∀ c ∈ cs, joinPath c.path ≠ key) :
    lookupKey (List.foldl updatedFieldsStep acc cs) key = lookupKey acc key := by
  induction cs generalizing acc with
  | nil => rfl
  | cons c rest ih =>
    simp only [List.foldl_cons]
    rw [ih _ (fun c' hc' => h c' (List.mem_cons_of_mem c hc'))]
    unfold updatedFieldsStep
    by_cases hid : joinPath c.path = "_id"
    · simp [hid]
    · simp only [ne_eq, hid, not_false_iff, if_true]
      exact lookupKey_insertUF_ne _ _ _ _ (fun he => h c (List.mem_cons_self c rest) he.symm)

theorem foldl_step_found (cs : List Change) (acc : List (String × UpdatedField))
    (key : String) (o n : Option Value) (hk : key ≠ "_id")
    (hfun : ∀ c ∈ cs, joinPath c.path = key → c.fromv = o ∧ c.tov = n)
    (hmem : ∃ c ∈ cs, joinPath c.path = key) :
    lookupKey (List.foldl updatedFieldsStep acc cs) key = some ⟨o, n⟩ := by
  induction cs generalizing acc with
  | nil =>
    obtain ⟨c, hc, _⟩ := hmem
    exact absurd hc (List.not_mem_nil c)
  | cons c rest ih =>
    simp only [List.foldl_cons]
    by_cases hc : joinPath c.path = key
    · obtain ⟨ho, hn⟩ := hfun c (List.mem_cons_self c rest) hc
      by_cases hrest : ∃ c' ∈ rest, joinPath c'.path = key
      · exact ih _ (fun c' hc' => hfun c' (List.mem_cons_of_mem c hc')) hrest
      · push_neg at hrest
        rw [foldl_step_untouched rest _ key hrest]
        unfold updatedFieldsStep
        rw [hc]
        simp only [ne_eq, hk, not_false_iff, if_true]
        rw [ho, hn]
        exact lookupKey_insertUF_self _ _ _
    · apply ih _ (fun c' hc' => hfun c' (List.mem_cons_of_mem c hc'))
      obtain ⟨c', hc', hjoin⟩ := hmem
      rcases List.mem_cons.mp hc' with rfl | hmem'
      · exact absurd hjoin hc
      · exact ⟨c', hmem', hjoin⟩

theorem foldl_step_some_inv (cs : List Change) (acc : List (String × UpdatedField))
    (key : String) (v : UpdatedField)
    (h : lookupKey (List.foldl updatedFieldsStep acc cs) key = some v) :
    (∃ c ∈ cs, joinPath c.path = key ∧ key ≠ "_id" ∧ v = ⟨c.fromv, c.tov⟩)
    ∨ lookupKey acc key = some v := by
  induction cs generalizing acc with
  | nil => exact Or.inr h
  | cons c rest ih =>
    simp only [List.foldl_cons] at h
    rcases ih _ h with ⟨c', hc', hrest⟩ | hacc
    · exact Or.inl ⟨c', List.mem_cons_of_mem c hc', hrest⟩
    · unfold updatedFieldsStep at hacc
      by_cases hid : joinPath c.path = "_id"
      · rw [hid] at hacc
        simp at hacc
        exact Or.inr hacc
      · simp only [ne_eq, hid, not_false_iff, if_true] at hacc
        by_cases hkey : key = joinPath c.path
        · subst hkey
          rw [lookupKey_insertUF_self] at hacc
          cases hacc
          exact Or.inl ⟨c, List.mem_cons_self c rest, rfl, hid, rfl⟩
        · rw [lookupKey_insertUF_ne _ _ _ _ hkey] at hacc
          exact Or.inr hacc

/-- C4 (amended).  For snapshots with well-formed (duplicate-free) keys
on which the diff succeeds, and whose changelog joins distinct paths to
distinct dotted keys, the produced map sends the dotted path of every
differing leaf other than the top-level identifier field to its
`{Old, New}` pair (missing side nil), and contains no other keys. -/
theorem updatedFields_maps_differing_leaves
    (a b : List (String × Value)) (uf : List (String × UpdatedField)) (cs : List Change)
    (hwa : wfEntries a = true) (hwb : wfEntries b = true)
    (hcs : diffDiff a b = .ok cs)
    (huf : updatedFields a b = .ok uf)
    (hinj : ∀ c ∈ cs, ∀ c' ∈ cs, joinPath c.path = joinPath c'.path → c.path = c'.path) :
    (∀ (p : List String) (o n : Option Value), leafDiff a b p o n → joinPath p ≠ "_id" →
        lookupKey uf (joinPath p) = some { old := o, new := n })
    ∧ (∀ (key : String) (v : UpdatedField), lookupKey uf key = some v →
        key ≠ "_id" ∧ ∃ p, joinPath p = key ∧ leafDiff a b p v.old v.new) := by
  obtain ⟨S, C⟩ := (diff_characterization (diffFuel a b)).1 []
    (some (.vMap a)) (some (.vMap b)) cs hcs
    (by simpa [wfO, wfValue] using hwa) (by simpa [wfO, wfValue] using hwb)
  have hufold : uf = List.foldl updatedFieldsStep [] cs := by
    unfold updatedFields at huf
    rw [hcs] at huf
    exact (Except.ok.injEq _ _).mp huf.symm
  subst hufold
  constructor
  · intro p o n hld hnid
    obtain ⟨hvo, hvn, hne, hmo, hmn⟩ := hld
    obtain ⟨t, hmem⟩ := C p o n hvo hvn hne hmo hmn
    rw [List.nil_append] at hmem
    apply foldl_step_found cs [] (joinPath p) o n hnid
    · intro c' hc' hjoin
      obtain ⟨q, hq, hfrom, hto, _, _, _⟩ := S c' hc'
      rw [List.nil_append] at hq
      have hpaths : c'.path = p :=
        hinj c' hc' ⟨t, p, o, n⟩ hmem (by simpa using hjoin)
      rw [hpaths] at hq
      subst hq
      exact ⟨by rw [hfrom, hvo], by rw [hto, hvn]⟩
    · exact ⟨⟨t, p, o, n⟩, hmem, rfl⟩
  · intro key v hlk
    rcases foldl_step_some_inv cs [] key v hlk with ⟨c, hcmem, hjoin, hkeyne, hv⟩ | hacc
    · refine ⟨hkeyne, c.path, hjoin, ?_⟩
      obtain ⟨q, hq, hfrom, hto, hne, hm1, hm2⟩ := S c hcmem
      rw [List.nil_append] at hq
      subst hq
      subst hv
      exact ⟨hfrom.symm, hto.symm, hne, by simpa using hm1, by simpa using hm2⟩
    · cases hacc

/-- C4 counterexample: the claim as stated fails when the identifier
field itself differs — `"_id"` is a differing leaf of the two
snapshots, yet the produced map is empty and does not send its dotted
path to the `{Old, New}` pair. -/
theorem updatedFields_identifier_leaf_counterexample :
    leafDiff [("_id", .vId 1)] [("_id", .vId 2)] ["_id"]
      (some (.vId 1)) (some (.vId 2))
    ∧ updatedFields [("_id", .vId 1)] [("_id", .vId 2)] = .ok []
    ∧ lookupKey ([] : List (String × UpdatedField)) (joinPath ["_id"]) = none :=
  ⟨by decide, rfl, rfl⟩

/-- C4 witness: the flat single-field case — exactly one field `F`
changed from `A` to `B` — produces exactly the map sending `F` to
`{Old: A, New: B}`. -/
theorem updatedFields_maps_differing_leaves_witness :
    updatedFields [("F", .vStr "A")] [("F", .vStr "B")] =
      .ok [("F", { old := some (.vStr "A"), new := some (.vStr "B") })]
    ∧ lookupKey [("F", ({ old := some (.vStr "A"), new := some (.vStr "B") } : UpdatedField))]
        (joinPath ["F"]) = some { old := some (.vStr "A"), new := some (.vStr "B") } :=
  ⟨rfl,
   (updatedFields_maps_differing_leaves [("F", .vStr "A")] [("F", .vStr "B")]
      [("F", { old := some (.vStr "A"), new := some (.vStr "B") })]
      [⟨"update", ["F"], some (.vStr "A"), some (.vStr "B")⟩]
      rfl rfl rfl rfl (by decide)).1 ["F"]
      (some (.vStr "A")) (some (.vStr "B")) (by decide) (by decide)⟩

theorem valueFuel_pos (v : Value) : 1 ≤ valueFuel v := by
  cases v <;> simp [valueFuel] <;> omega

theorem entriesFuel_pos (l : List (String × Value)) : 1 ≤ entriesFuel l := by
  cases l with
  | nil => simp [entriesFuel]
  | cons hd tl => simp [entriesFuel]; omega

theorem lookup_valueFuel {l : List (String × Value)} {k : String} {v : Value}
    (h : lookupKey l k = some v) : valueFuel v + 2 ≤ entriesFuel l := by
  induction l with
  | nil => cases h
  | cons hd tl ih =>
    obtain ⟨k', v'⟩ := hd
    by_cases hk : k' = k
    · simp only [lookupKey, if_pos hk] at h
      cases h
      have := entriesFuel_pos tl
      simp only [entriesFuel]
      omega
    · simp only [lookupKey, if_neg hk] at h
      have := ih h
      have hp := valueFuel_pos v'
      simp only [entriesFuel]
      omega

theorem valueFuelO_lookup_le (l : List (String × Value)) (k : String) :
    valueFuelO (lookupKey l k) ≤ entriesFuel l := by
  rcases h : lookupKey l k with _ | v
  · simpa [valueFuelO] using entriesFuel_pos l
  · have := lookup_valueFuel h
    simp only [valueFuelO]
    omega

theorem length_le_entriesFuel (l : List (String × Value)) : l.length ≤ entriesFuel l := by
  induction l with
  | nil => simp [entriesFuel]
  | cons hd tl ih =>
    obtain ⟨k', v'⟩ := hd
    have := valueFuel_pos v'
    simp only [List.length_cons, entriesFuel]
    omega

theorem unionKeys_length_le (ma mb : List (String × Value)) :
    (unionKeys ma mb).length ≤ ma.length + mb.length := by
  unfold unionKeys
  rw [List.length_append]
  have h1 := List.length_filter_le (fun k => !(ma.map Prod.fst).contains k) (mb.map Prod.fst)
  simp only [List.length_map] at *
  omega

/-- The fuel supplied by `diffDiff` is always sufficient: with fuel at
least the bound of the two sides, the only error the diff can return is
the shape-mismatch error — the fuel guard is never hit, so the fuel
embedding agrees with the unbounded recursion of the library. -/
theorem diff_error_only_mismatch : ∀ fuel : Nat,
    (∀ (path : List String) (x y : Option Value) (e : String),
      valueFuelO x + valueFuelO y ≤ fuel → diffOV fuel path x y = .error e →
      e = "types do not match")
    ∧ (∀ (path : List String) (ma mb : List (String × Value)) (ks : List String) (e : String),
      ks.length + entriesFuel ma + entriesFuel mb ≤ fuel →
      diffKeys fuel path ma mb ks = .error e → e = "types do not match") := by
  intro fuel
  induction fuel with
  | zero =>
    constructor
    · intro path x y e hb _
      rcases x with _ | vx <;> rcases y with _ | vy <;> simp [valueFuelO] at hb <;> omega
    · intro path ma mb ks e hb _
      have h1 := entriesFuel_pos ma
      have h2 := entriesFuel_pos mb
      omega
  | succ fuel ih =>
    obtain ⟨ihOV, ihK⟩ := ih
    constructor
    · intro path x y e hb h
      rcases x with _ | vx <;> rcases y with _ | vy
      · simp only [diffOV] at h
        exact Except.noConfusion h
      · simp only [diffOV] at h
        exact Except.noConfusion h
      · simp only [diffOV] at h
        exact Except.noConfusion h
      · rcases vx with sa | ia | ba | ida | ma <;> rcases vy with sb | ib | bb | idb | mb <;>
          simp only [diffOV, Except.error.injEq] at h <;>
          first
          | exact h.symm
          | exact Except.noConfusion h
          | skip
        apply ihK path ma mb (unionKeys ma mb) e _ h
        have hu := unionKeys_length_le ma mb
        have hla := length_le_entriesFuel ma
        have hlb := length_le_entriesFuel mb
        simp only [valueFuelO, valueFuel] at hb
        omega
    · intro path ma mb ks e hb h
      rcases ks with _ | ⟨k, rest⟩
      · simp only [diffKeys] at h
        exact Except.noConfusion h
      · simp only [diffKeys] at h
        rcases h1 : diffOV fuel (path ++ [k]) (lookupKey ma k) (lookupKey mb k) with e1 | cs1
        · simp only [h1, Except.error.injEq] at h
          subst h
          apply ihOV (path ++ [k]) (lookupKey ma k) (lookupKey mb k) e1 _ h1
          have ha := valueFuelO_lookup_le ma k
          have hbq := valueFuelO_lookup_le mb k
          simp only [List.length_cons] at hb
          omega
        · simp only [h1] at h
          rcases h2 : diffKeys fuel path ma mb rest with e2 | cs2
          · simp only [h2, Except.error.injEq] at h
            subst h
            apply ihK path ma mb rest e2 _ h2
            simp only [List.length_cons] at hb
            omega
          · simp only [h2] at h
            exact Except.noConfusion h
